import Mathlib

/-!
# Verification of the SQL formatter (tokenizer + formatter pipeline)

Shallow embedding of `src/main.rs`: the `Lexer` (tokenizer) and the
`Formatter`. Rust `String`/`Vec<char>` buffers are modelled as `String`
payloads / `List Char` buffers; the Unicode-aware character classes
(`is_alphabetic`, `is_alphanumeric`, `to_uppercase`, `trim`) coincide with
their ASCII restrictions on the inputs this program manipulates and are
modelled by the corresponding ASCII operations. The unchecked `usize`
decrement `indent_level -= 1` (a panic / wrap in Rust when the level is 0)
is modelled by returning `none` from `format`.
-/

/-- Token: the closed tagged union from `src/main.rs` lines 4-13. -/
inductive Token where
  | Keyword (s : String)
  | Identifier (s : String)
  | Literal (s : String)
  | Operator (s : String)
  | Punctuation (c : Char)
  | Whitespace
  | EOF
deriving DecidableEq, Repr

/-- Lexer state: the character buffer and the monotone cursor
(`src/main.rs` lines 16-19). -/
structure Lexer where
  input : List Char
  position : Nat
deriving DecidableEq, Repr

/-- The while-loops of `read_identifier` / `read_string_literal` /
`read_number_literal`: consume characters at the cursor while `p` holds and
the cursor is in bounds, returning the consumed run and the advanced lexer.
The structural `fuel` argument bounds the number of iterations; the loop
consumes one character per iteration, so `input.length - position` iterations
always suffice (`scanWhileGo_fuel_spec`). -/
def scanWhileGo (p : Char → Bool) : Nat → Lexer → List Char × Lexer
  | 0, l => ([], l)
  | fuel + 1, l =>
    if h : l.position < l.input.length then
      let c := l.input.get ⟨l.position, h⟩
      if p c then
        let r := scanWhileGo p fuel { l with position := l.position + 1 }
        (c :: r.1, r.2)
      else ([], l)
    else ([], l)

/-- The scanning loop with its always-sufficient iteration budget. -/
def scanWhile (p : Char → Bool) (l : Lexer) : List Char × Lexer :=
  scanWhileGo p (l.input.length - l.position) l

/-- The reserved-word set of `read_identifier` (`src/main.rs` lines 61-63). -/
def reservedWords : List String :=
  ["SELECT", "FROM", "WHERE", "AND", "OR", "INSERT", "INTO", "UPDATE", "SET",
   "DELETE", "JOIN", "LEFT", "RIGHT", "OUTER", "INNER", "ON", "GROUP", "BY",
   "ORDER", "HAVING", "AS", "CREATE", "TABLE", "DROP", "ALTER"]

/-- Rust `str::to_uppercase` (its ASCII fragment, which is all this program
exercises): upper-case every character. -/
def upperCase (s : String) : String :=
  String.mk (s.data.map Char.toUpper)

/-- `Lexer::read_identifier` (`src/main.rs` lines 51-68). -/
def read_identifier (first : Char) (l : Lexer) : Token × Lexer :=
  let r := scanWhile Char.isAlphanum l
  let ident : String := String.mk (first :: r.1)
  if reservedWords.contains (upperCase ident) then
    (Token.Keyword (upperCase ident), r.2)
  else
    (Token.Identifier ident, r.2)

/-- `Lexer::read_string_literal` (`src/main.rs` lines 71-85): consume up to
the next single quote; append the closing quote when present. -/
def read_string_literal (l : Lexer) : Token × Lexer :=
  let r := scanWhile (fun c => c != '\'') l
  if h : r.2.position < r.2.input.length then
    (Token.Literal (String.mk ('\'' :: (r.1 ++ [r.2.input.get ⟨r.2.position, h⟩]))),
     { r.2 with position := r.2.position + 1 })
  else
    (Token.Literal (String.mk ('\'' :: r.1)), r.2)

/-- `Lexer::read_number_literal` (`src/main.rs` lines 88-98). -/
def read_number_literal (first : Char) (l : Lexer) : Token × Lexer :=
  let r := scanWhile Char.isDigit l
  (Token.Literal (String.mk (first :: r.1)), r.2)

/-- `Lexer::next_token` (`src/main.rs` lines 31-48). -/
def next_token (l : Lexer) : Token × Lexer :=
  if h : l.position < l.input.length then
    let ch := l.input.get ⟨l.position, h⟩
    let l1 : Lexer := { l with position := l.position + 1 }
    if ch = ' ' ∨ ch = '\t' ∨ ch = '\n' ∨ ch = '\r' then
      (Token.Whitespace, l1)
    else if ch = ',' ∨ ch = ';' ∨ ch = '(' ∨ ch = ')' then
      (Token.Punctuation ch, l1)
    else if ch = '+' ∨ ch = '-' ∨ ch = '*' ∨ ch = '/' ∨ ch = '=' ∨ ch = '<' ∨ ch = '>' then
      (Token.Operator (String.mk [ch]), l1)
    else if ch = '\'' then
      read_string_literal l1
    else if ch.isAlpha then
      read_identifier ch l1
    else if ch.isDigit then
      read_number_literal ch l1
    else
      (Token.Identifier (String.mk [ch]), l1)
  else
    (Token.EOF, l)

/-- Any iteration budget of at least `input.length - position` computes the
full scan: the loop consumes exactly the maximal run of characters satisfying
`p` that starts at the cursor, and advances the cursor past that run. -/
theorem scanWhileGo_fuel_spec (p : Char → Bool) (fuel : Nat) (l : Lexer)
    (hfuel : l.input.length - l.position ≤ fuel) :
    scanWhileGo p fuel l =
      ((l.input.drop l.position).takeWhile p,
       { l with position := l.position + ((l.input.drop l.position).takeWhile p).length }) := by
  induction fuel generalizing l with
  | zero =>
    have hnil : l.input.drop l.position = [] := List.drop_eq_nil_of_le (by omega)
    simp [scanWhileGo, hnil]
  | succ fuel ih =>
    rw [scanWhileGo]
    split
    · rename_i h
      by_cases hp : p l.input[l.position]
      · have ihl := ih { l with position := l.position + 1 } (by simp; omega)
        have htw : (l.input.drop l.position).takeWhile p
            = l.input[l.position] :: ((l.input.drop (l.position + 1)).takeWhile p) := by
          rw [List.drop_eq_getElem_cons h, List.takeWhile_cons]
          simp [hp]
        simp only [List.get_eq_getElem, hp, if_true, ihl, htw, List.length_cons,
          Prod.mk.injEq, Lexer.mk.injEq]
        exact ⟨trivial, trivial, by omega⟩
      · have htw : (l.input.drop l.position).takeWhile p = [] := by
          rw [List.drop_eq_getElem_cons h, List.takeWhile_cons]
          simp [hp]
        simp [List.get_eq_getElem, hp, htw]
    · rename_i h
      have hnil : l.input.drop l.position = [] := List.drop_eq_nil_of_le (by omega)
      simp [hnil]

/-- Closed form of `scanWhile`. -/
theorem scanWhile_spec (p : Char → Bool) (l : Lexer) :
    scanWhile p l =
      ((l.input.drop l.position).takeWhile p,
       { l with position := l.position + ((l.input.drop l.position).takeWhile p).length }) :=
  scanWhileGo_fuel_spec p _ l (Nat.le_refl _)

/-- Past the end of the input, `next_token` returns `EOF` and leaves the
lexer untouched (the absorbing end-of-input state). -/
theorem next_token_at_end (l : Lexer) (h : l.input.length ≤ l.position) :
    next_token l = (Token.EOF, l) := by
  rw [next_token]
  split
  · omega
  · rfl

/-- `read_string_literal` preserves the input, never moves the cursor
backwards, and never moves it past the end. -/
theorem read_string_literal_bounds (l : Lexer) (hle : l.position ≤ l.input.length) :
    (read_string_literal l).2.input = l.input ∧
    l.position ≤ (read_string_literal l).2.position ∧
    (read_string_literal l).2.position ≤ l.input.length := by
  have hlen : ((l.input.drop l.position).takeWhile (fun c => c != '\'')).length
      ≤ l.input.length - l.position := by
    calc ((l.input.drop l.position).takeWhile (fun c => c != '\'')).length
        ≤ (l.input.drop l.position).length := (List.takeWhile_sublist _).length_le
      _ = l.input.length - l.position := List.length_drop _ _
  simp only [read_string_literal]
  rw [scanWhile_spec]
  dsimp only
  split <;> refine ⟨rfl, ?_, ?_⟩ <;> dsimp only <;> omega

/-- `read_identifier` preserves the input, never moves the cursor backwards,
and never moves it past the end. -/
theorem read_identifier_bounds (c : Char) (l : Lexer) (hle : l.position ≤ l.input.length) :
    (read_identifier c l).2.input = l.input ∧
    l.position ≤ (read_identifier c l).2.position ∧
    (read_identifier c l).2.position ≤ l.input.length := by
  have hlen : ((l.input.drop l.position).takeWhile Char.isAlphanum).length
      ≤ l.input.length - l.position := by
    calc ((l.input.drop l.position).takeWhile Char.isAlphanum).length
        ≤ (l.input.drop l.position).length := (List.takeWhile_sublist _).length_le
      _ = l.input.length - l.position := List.length_drop _ _
  simp only [read_identifier]
  rw [scanWhile_spec]
  dsimp only
  split <;> refine ⟨rfl, ?_, ?_⟩ <;> dsimp only <;> omega

/-- `read_number_literal` preserves the input, never moves the cursor
backwards, and never moves it past the end. -/
theorem read_number_literal_bounds (c : Char) (l : Lexer) (hle : l.position ≤ l.input.length) :
    (read_number_literal c l).2.input = l.input ∧
    l.position ≤ (read_number_literal c l).2.position ∧
    (read_number_literal c l).2.position ≤ l.input.length := by
  have hlen : ((l.input.drop l.position).takeWhile Char.isDigit).length
      ≤ l.input.length - l.position := by
    calc ((l.input.drop l.position).takeWhile Char.isDigit).length
        ≤ (l.input.drop l.position).length := (List.takeWhile_sublist _).length_le
      _ = l.input.length - l.position := List.length_drop _ _
  simp only [read_number_literal]
  rw [scanWhile_spec]
  dsimp only
  refine ⟨rfl, ?_, ?_⟩ <;> dsimp only <;> omega

/-- In bounds, `next_token` advances the cursor by at least one character,
never moves it past the end, preserves the input, and never returns `EOF`. -/
theorem next_token_advances (l : Lexer) (h : l.position < l.input.length) :
    l.position < (next_token l).2.position ∧
    (next_token l).2.position ≤ l.input.length ∧
    (next_token l).2.input = l.input ∧
    (next_token l).1 ≠ Token.EOF := by
  simp only [next_token]
  rw [dif_pos h]
  split
  · refine ⟨?_, ?_, rfl, ?_⟩ <;> (simp; try omega)
  split
  · refine ⟨?_, ?_, rfl, ?_⟩ <;> (simp; try omega)
  split
  · refine ⟨?_, ?_, rfl, ?_⟩ <;> (simp; try omega)
  split
  · obtain ⟨ha, hb, hc⟩ :=
      read_string_literal_bounds { l with position := l.position + 1 } (by dsimp only; omega)
    have hne : (read_string_literal { l with position := l.position + 1 }).1 ≠ Token.EOF := by
      simp only [read_string_literal]
      split <;> simp
    dsimp only at ha hb
    exact ⟨by omega, hc, ha, hne⟩
  split
  · obtain ⟨ha, hb, hc⟩ :=
      read_identifier_bounds (l.input.get ⟨l.position, h⟩) { l with position := l.position + 1 }
        (by dsimp only; omega)
    have hne : (read_identifier (l.input.get ⟨l.position, h⟩)
        { l with position := l.position + 1 }).1 ≠ Token.EOF := by
      simp only [read_identifier]
      split <;> simp
    dsimp only at ha hb
    exact ⟨by omega, hc, ha, hne⟩
  split
  · obtain ⟨ha, hb, hc⟩ :=
      read_number_literal_bounds (l.input.get ⟨l.position, h⟩) { l with position := l.position + 1 }
        (by dsimp only; omega)
    have hne : (read_number_literal (l.input.get ⟨l.position, h⟩)
        { l with position := l.position + 1 }).1 ≠ Token.EOF := by
      simp only [read_number_literal]
      simp
    dsimp only at ha hb
    exact ⟨by omega, hc, ha, hne⟩
  · refine ⟨?_, ?_, rfl, ?_⟩ <;> (simp; try omega)

/-- The token-collection loop of `main` (`src/main.rs` lines 215-221):
repeatedly call `next_token`, stop at `EOF`. The structural `fuel` argument
bounds the number of iterations; `next_token` consumes at least one character
per non-`EOF` token, so `input.length + 1` calls always suffice
(`tokenizeGo_fuel`). -/
def tokenizeGo : Nat → Lexer → List Token
  | 0, _ => []
  | fuel + 1, l =>
    let r := next_token l
    if r.1 = Token.EOF then [] else r.1 :: tokenizeGo fuel r.2

/-- Run the lexer to exhaustion over a character buffer (`main`'s token
collection), with its always-sufficient iteration budget. -/
def tokenize (cs : List Char) : List Token :=
  tokenizeGo (cs.length + 1) { input := cs, position := 0 }

/-- Tokenize a string. -/
def tokenizeStr (s : String) : List Token :=
  tokenize s.data

/-- Any iteration budget strictly larger than the number of unread characters
computes the same token list: the loop genuinely terminates and `tokenize`'s
budget is sufficient. -/
theorem tokenizeGo_fuel (fuel1 fuel2 : Nat) (l : Lexer)
    (h1 : l.input.length - l.position < fuel1)
    (h2 : l.input.length - l.position < fuel2) :
    tokenizeGo fuel1 l = tokenizeGo fuel2 l := by
  induction fuel1 generalizing fuel2 l with
  | zero => omega
  | succ fuel1 ih =>
    cases fuel2 with
    | zero => omega
    | succ fuel2 =>
      simp only [tokenizeGo]
      by_cases heof : (next_token l).1 = Token.EOF
      · simp [heof]
      · have hpos : l.position < l.input.length := by
          by_contra hge
          exact heof (by rw [next_token_at_end l (by omega)])
        obtain ⟨ha, hb, hc, _⟩ := next_token_advances l hpos
        have hlenc : (next_token l).2.input.length = l.input.length := by rw [hc]
        rw [if_neg heof, if_neg heof, ih fuel2 (next_token l).2 (by omega) (by omega)]

/-- The loop produces at most one token per unread character. -/
theorem tokenizeGo_length (fuel : Nat) (l : Lexer) :
    (tokenizeGo fuel l).length ≤ l.input.length - l.position := by
  induction fuel generalizing l with
  | zero => simp [tokenizeGo]
  | succ fuel ih =>
    simp only [tokenizeGo]
    by_cases heof : (next_token l).1 = Token.EOF
    · simp [heof]
    · have hpos : l.position < l.input.length := by
        by_contra hge
        exact heof (by rw [next_token_at_end l (by omega)])
      obtain ⟨ha, hb, hc, _⟩ := next_token_advances l hpos
      have hlenc : (next_token l).2.input.length = l.input.length := by rw [hc]
      rw [if_neg heof]
      have := ih (next_token l).2
      simp only [List.length_cons]
      omega

/-- A single indent unit per level: Rust `"\t".repeat(n)`. -/
def tabs (n : Nat) : List Char := List.replicate n '\t'

/-- Formatter working state (`src/main.rs` lines 101-105): the indentation
level and the output buffer. The token list is an argument of the loop. -/
structure FmtState where
  indent_level : Nat
  output : List Char
deriving DecidableEq, Repr

/-- Rust `self.output.ends_with('\n')`. -/
def endsWithNewline (out : List Char) : Bool :=
  out.getLast? == some '\n'

/-- `Formatter::new_line` (`src/main.rs` lines 189-196). -/
def new_line (st : FmtState) : FmtState :=
  let out1 := if !st.output.isEmpty && endsWithNewline st.output
              then st.output ++ ['\n'] else st.output
  { st with output := out1 ++ tabs st.indent_level }

/-- `Formatter::append_token` (`src/main.rs` lines 168-177). -/
def append_token (st : FmtState) (t : Token) : FmtState :=
  match t with
  | Token.Keyword s => { st with output := st.output ++ s.data }
  | Token.Identifier s => { st with output := st.output ++ s.data }
  | Token.Literal s => { st with output := st.output ++ s.data }
  | Token.Operator s => { st with output := st.output ++ s.data }
  | Token.Punctuation c => { st with output := st.output ++ [c] }
  | _ => st

/-- `Formatter::append_with_space` (`src/main.rs` lines 179-187). -/
def append_with_space (st : FmtState) (t : Token) (last : Option Token) : FmtState :=
  let st1 := match last with
    | some (Token.Punctuation '(') => st
    | some _ => { st with output := st.output ++ [' '] }
    | none => st
  append_token st1 t

/-- The major clause keywords of `Formatter::format` (`src/main.rs`
lines 125-126). -/
def majorClauseKeywords : List String :=
  ["SELECT", "FROM", "WHERE", "UPDATE", "SET", "GROUP", "ORDER", "LEFT",
   "RIGHT", "INNER"]

/-- One iteration of the `Formatter::format` token loop (`src/main.rs`
lines 122-158). The unchecked `usize` decrement `indent_level -= 1` of the
closing-parenthesis branch (line 146) is modelled by `none` when the level
is already zero. -/
def formatStep (st : FmtState) (last : Option Token) (t : Token) : Option FmtState :=
  match t with
  | Token.Keyword kw =>
    if majorClauseKeywords.contains kw then
      let st1 := new_line st
      let st2 := append_token st1 t
      let st3 := new_line st2
      some { st3 with indent_level := st3.indent_level + 1 }
    else if kw = "AND" ∨ kw = "OR" then
      some (append_token (new_line st) t)
    else
      some (append_with_space st t last)
  | Token.Punctuation '(' =>
    let st1 := append_with_space st t last
    let st2 := { st1 with indent_level := st1.indent_level + 1 }
    some (new_line st2)
  | Token.Punctuation ')' =>
    if st.indent_level = 0 then
      none
    else
      let st1 := { st with indent_level := st.indent_level - 1 }
      let st2 := new_line st1
      some (append_token st2 t)
  | Token.Punctuation ',' =>
    some (new_line (append_token st t))
  | Token.Whitespace => some st
  | _ => some (append_with_space st t last)

/-- The `Formatter::format` token loop with its `last_token` record
(`src/main.rs` lines 119-163): the returned pair carries the final state and
the final value of `last_token`. -/
def formatLoop (st : FmtState) (last : Option Token) :
    List Token → Option (FmtState × Option Token)
  | [] => some (st, last)
  | t :: ts =>
    match formatStep st last t with
    | none => none
    | some st1 => formatLoop st1 (if t = Token.Whitespace then last else some t) ts

/-- Rust `char::is_whitespace`, restricted to the whitespace characters this
program manipulates. -/
def isWsChar (c : Char) : Bool :=
  c = ' ' || c = '\t' || c = '\n' || c = '\r'

/-- Rust `str::trim`: drop leading and trailing whitespace. -/
def trim (s : List Char) : List Char :=
  ((s.dropWhile isWsChar).reverse.dropWhile isWsChar).reverse

/-- `Formatter::format` (`src/main.rs` lines 118-166): run the token loop
from a fresh state (level 0, empty buffer, no previous token) and trim the
result. `none` models the `usize` underflow panic on an excess closing
parenthesis. -/
def format (tokens : List Token) : Option (List Char) :=
  (formatLoop { indent_level := 0, output := [] } none tokens).map
    (fun r => trim r.1.output)

/-- The full pipeline of `main`: tokenize, then format. -/
def formatSql (s : String) : Option (List Char) :=
  format (tokenizeStr s)

/-- The character at which a `takeWhile` scan stops fails the predicate. -/
theorem takeWhile_stop (p : Char → Bool) :
    ∀ (xs : List Char) (h : (xs.takeWhile p).length < xs.length),
      p (xs.get ⟨(xs.takeWhile p).length, h⟩) = false := by
  intro xs
  induction xs with
  | nil => intro h; simp at h
  | cons x xs ih =>
    intro h
    by_cases hp : p x
    · have hlen : ((x :: xs).takeWhile p).length = (xs.takeWhile p).length + 1 := by
        simp [List.takeWhile_cons, hp]
      have hlt : (xs.takeWhile p).length < xs.length := by
        have h2 := h
        rw [hlen] at h2
        simpa using h2
      simp only [List.get_eq_getElem, hlen, List.getElem_cons_succ]
      simpa using ih hlt
    · have hlen : ((x :: xs).takeWhile p).length = 0 := by
        simp [List.takeWhile_cons, hp]
      simp only [List.get_eq_getElem, hlen, List.getElem_cons_zero]
      simpa using hp

/-- Claim C2: formatting the unbalanced input ")" (a lone closing
parenthesis) does not succeed: the closing-parenthesis branch would drive the
indentation level below zero, which is the defined error path (`none`), not a
silently accepted malformed result. -/
theorem claim_C2 :
    tokenizeStr ")" = [Token.Punctuation ')'] ∧
    format (tokenizeStr ")") = none := by
  decide

/-- Claim C6: numeric literal scanning consumes exactly the maximal run of
consecutive decimal digits after the first one — no decimal point, sign or
exponent — so the cursor is left on the first non-digit character, which
starts a new, separate token; in particular "123abc" tokenizes to
Literal "123" followed by Identifier "abc". -/
theorem claim_C6 :
    tokenizeStr "123abc" = [Token.Literal "123", Token.Identifier "abc"] ∧
    ∀ (first : Char) (l : Lexer),
      read_number_literal first l =
        (Token.Literal (String.mk (first :: (l.input.drop l.position).takeWhile Char.isDigit)),
         { l with position :=
             l.position + ((l.input.drop l.position).takeWhile Char.isDigit).length }) := by
  constructor
  · decide
  · intro first l
    simp only [read_number_literal]
    rw [scanWhile_spec]

/-- Closed form of `read_string_literal` (called with the cursor just past
the opening quote): the literal is the opening quote plus everything up to
the next quote; when the scan stopped inside the input, the stopping
character is a quote, it is appended, and the cursor moves past it; when the
scan stopped at end of input, nothing is appended and no error is raised. -/
theorem read_string_literal_spec (l : Lexer) :
    read_string_literal l =
      (if l.position + ((l.input.drop l.position).takeWhile (fun c => c != '\'')).length
          < l.input.length then
        (Token.Literal (String.mk ('\'' ::
            ((l.input.drop l.position).takeWhile (fun c => c != '\'') ++ ['\'']))),
         { l with position :=
             l.position + ((l.input.drop l.position).takeWhile (fun c => c != '\'')).length + 1 })
      else
        (Token.Literal (String.mk ('\'' ::
            (l.input.drop l.position).takeWhile (fun c => c != '\''))),
         { l with position :=
             l.position + ((l.input.drop l.position).takeWhile (fun c => c != '\'')).length })) := by
  simp only [read_string_literal]
  rw [scanWhile_spec]
  dsimp only
  split
  · rename_i hterm
    have hdroplen : (l.input.drop l.position).length = l.input.length - l.position :=
      List.length_drop _ _
    have hklt : ((l.input.drop l.position).takeWhile (fun c => c != '\'')).length
        < (l.input.drop l.position).length := by omega
    have hstop := takeWhile_stop (fun c => c != '\'') (l.input.drop l.position) hklt
    have hget : (l.input.drop l.position).get
        ⟨((l.input.drop l.position).takeWhile (fun c => c != '\'')).length, hklt⟩
        = l.input.get ⟨l.position +
            ((l.input.drop l.position).takeWhile (fun c => c != '\'')).length, hterm⟩ := by
      simp [List.getElem_drop]
    rw [hget] at hstop
    have hq : l.input.get ⟨l.position +
        ((l.input.drop l.position).takeWhile (fun c => c != '\'')).length, hterm⟩ = '\'' := by
      simpa using hstop
    rw [hq]
  · rfl

/-- Claim C7: string-literal scanning consumes from the opening quote to the
next quote or end of input, including both quotes when the closing quote
exists; an unterminated literal ends at end of input with no closing quote
appended and no error: "'ab'" gives Literal "'ab'" and "'ab" gives
Literal "'ab". -/
theorem claim_C7 :
    tokenizeStr "'ab'" = [Token.Literal "'ab'"] ∧
    tokenizeStr "'ab" = [Token.Literal "'ab"] ∧
    ∀ l : Lexer,
      read_string_literal l =
        (if l.position + ((l.input.drop l.position).takeWhile (fun c => c != '\'')).length
            < l.input.length then
          (Token.Literal (String.mk ('\'' ::
              ((l.input.drop l.position).takeWhile (fun c => c != '\'') ++ ['\'']))),
           { l with position :=
               l.position + ((l.input.drop l.position).takeWhile (fun c => c != '\'')).length + 1 })
        else
          (Token.Literal (String.mk ('\'' ::
              (l.input.drop l.position).takeWhile (fun c => c != '\''))),
           { l with position :=
               l.position +
                 ((l.input.drop l.position).takeWhile (fun c => c != '\'')).length })) :=
  ⟨by decide, by decide, read_string_literal_spec⟩

/-- Claim C4: `new_line` appends one extra line break exactly when the buffer
is non-empty and already ends in a line break, and in every case then appends
one tab per current indentation level; the level itself is unchanged. -/
theorem claim_C4 (st : FmtState) :
    (new_line st).indent_level = st.indent_level ∧
    (new_line st).output =
      (if st.output ≠ [] ∧ st.output.getLast? = some '\n'
       then st.output ++ ['\n'] else st.output) ++ List.replicate st.indent_level '\t' := by
  refine ⟨rfl, ?_⟩
  simp only [new_line, tabs, endsWithNewline]
  by_cases h1 : st.output = []
  · simp [h1]
  · by_cases h2 : st.output.getLast? = some '\n'
    · simp [h1, h2]
    · simp [h1, h2]

/-- Claim C8: tokenization is total and terminates on every finite input:
past end of input every call returns EOF without moving the cursor (the
absorbing state); any call returning a non-EOF token advances the cursor by
at least one character, stays in bounds and preserves the input; the
collection loop computes the same token list under every sufficient
iteration budget (so EOF is reached after finitely many calls); and the
token count is bounded by the character count. -/
theorem claim_C8 :
    (∀ l : Lexer, l.input.length ≤ l.position → next_token l = (Token.EOF, l)) ∧
    (∀ l : Lexer, (next_token l).1 ≠ Token.EOF →
      l.position < (next_token l).2.position ∧
      (next_token l).2.position ≤ l.input.length ∧
      (next_token l).2.input = l.input) ∧
    (∀ (fuel1 fuel2 : Nat) (l : Lexer),
      l.input.length - l.position < fuel1 → l.input.length - l.position < fuel2 →
      tokenizeGo fuel1 l = tokenizeGo fuel2 l) ∧
    (∀ cs : List Char, (tokenize cs).length ≤ cs.length) := by
  refine ⟨next_token_at_end, ?_, tokenizeGo_fuel, ?_⟩
  · intro l hne
    have hpos : l.position < l.input.length := by
      by_contra hge
      exact hne (by rw [next_token_at_end l (by omega)])
    obtain ⟨ha, hb, hc, _⟩ := next_token_advances l hpos
    exact ⟨ha, hb, hc⟩
  · intro cs
    have h := tokenizeGo_length (cs.length + 1) { input := cs, position := 0 }
    simpa [tokenize] using h

/-- Witness for C8 at concrete lexer states. -/
theorem claim_C8_witness :
    next_token { input := ['a'], position := 2 } =
      (Token.EOF, { input := ['a'], position := 2 }) ∧
    (0 < (next_token { input := ['a'], position := 0 }).2.position ∧
      (next_token { input := ['a'], position := 0 }).2.position ≤ 1 ∧
      (next_token { input := ['a'], position := 0 }).2.input = ['a']) ∧
    tokenizeGo 3 { input := ['a'], position := 0 } =
      tokenizeGo 7 { input := ['a'], position := 0 } := by
  refine ⟨claim_C8.1 _ (by decide), ?_, claim_C8.2.2.1 3 7 _ (by decide) (by decide)⟩
  exact claim_C8.2.1 { input := ['a'], position := 0 } (by decide)

/-- `new_line` does not change the indentation level. -/
theorem new_line_indent (st : FmtState) : (new_line st).indent_level = st.indent_level := rfl

/-- `append_token` does not change the indentation level. -/
theorem append_token_indent (st : FmtState) (t : Token) :
    (append_token st t).indent_level = st.indent_level := by
  cases t <;> rfl

/-- `append_with_space` does not change the indentation level. -/
theorem append_with_space_indent (st : FmtState) (t : Token) (last : Option Token) :
    (append_with_space st t last).indent_level = st.indent_level := by
  unfold append_with_space
  split <;> simp [append_token_indent]

/-- Every branch of the formatter loop body except the closing-parenthesis
branch produces a state. -/
theorem formatStep_isSome (st : FmtState) (last : Option Token) (t : Token)
    (h : t ≠ Token.Punctuation ')') : (formatStep st last t).isSome = true := by
  unfold formatStep
  split
  · split
    · simp
    split
    · simp
    · simp
  · simp
  · simp_all
  · simp
  · simp
  · simp

/-- If no token is a closing parenthesis, the format loop always succeeds. -/
theorem formatLoop_isSome (tokens : List Token) :
    ∀ (st : FmtState) (last : Option Token), Token.Punctuation ')' ∉ tokens →
      (formatLoop st last tokens).isSome = true := by
  induction tokens with
  | nil =>
    intro st last h
    simp [formatLoop]
  | cons t ts ih =>
    intro st last h
    have hne : t ≠ Token.Punctuation ')' := by
      intro heq
      exact h (by simp [heq])
    have hs := formatStep_isSome st last t hne
    simp only [formatLoop]
    obtain ⟨st1, hst1⟩ := Option.isSome_iff_exists.mp hs
    rw [hst1]
    exact ih _ _ (fun hm => h (List.mem_cons_of_mem _ hm))

/-- Claim C10: for every token sequence containing no closing parenthesis,
`format` is total and never underflows the indentation counter: the decrement
is reachable only from the closing-parenthesis branch. -/
theorem claim_C10 (tokens : List Token) (h : Token.Punctuation ')' ∉ tokens) :
    (format tokens).isSome = true := by
  have hs := formatLoop_isSome tokens { indent_level := 0, output := [] } none h
  obtain ⟨r, hr⟩ := Option.isSome_iff_exists.mp hs
  simp [format, hr]

/-- Witness for C10 at a concrete parenthesis-free token sequence. -/
theorem claim_C10_witness :
    Token.Punctuation ')' ∉ [Token.Keyword "SELECT", Token.Identifier "a"] ∧
    (format [Token.Keyword "SELECT", Token.Identifier "a"]).isSome = true :=
  ⟨by decide, claim_C10 _ (by decide)⟩

/-- A token whose characters (as appended by `append_token`) contain no
line-break character. -/
def tokenHasNoNewline (t : Token) : Bool :=
  match t with
  | Token.Keyword s => !(s.data.contains '\n')
  | Token.Identifier s => !(s.data.contains '\n')
  | Token.Literal s => !(s.data.contains '\n')
  | Token.Operator s => !(s.data.contains '\n')
  | Token.Punctuation c => c != '\n'
  | _ => true

/-- Anything in the trimmed buffer was in the buffer. -/
theorem mem_of_mem_trim (c : Char) (s : List Char) (h : c ∈ trim s) : c ∈ s := by
  unfold trim at h
  rw [List.mem_reverse] at h
  have h2 := (List.dropWhile_sublist isWsChar).mem h
  rw [List.mem_reverse] at h2
  exact (List.dropWhile_sublist isWsChar).mem h2

/-- A buffer that contains no line break gains none from `new_line`. -/
theorem no_newline_new_line (st : FmtState) (h : '\n' ∉ st.output) :
    '\n' ∉ (new_line st).output := by
  have hlast : endsWithNewline st.output = false := by
    unfold endsWithNewline
    cases hl : st.output.getLast? with
    | none => rfl
    | some c =>
      by_cases hcn : c = '\n'
      · subst hcn
        have hin : '\n' ∈ st.output.getLast? := by rw [Option.mem_def, hl]
        obtain ⟨hne, heq⟩ := List.mem_getLast?_eq_getLast hin
        refine absurd ?_ h
        rw [heq]
        exact st.output.getLast_mem hne
      · simp [hcn]
  simp only [new_line, tabs, hlast, Bool.and_false, if_false, Bool.false_eq_true]
  intro hmem
  rcases List.mem_append.mp hmem with hmem1 | hmem2
  · exact h hmem1
  · simpa using (List.mem_replicate.mp hmem2).2

/-- A newline-free payload appended to a newline-free buffer stays
newline-free. -/
theorem no_newline_append_data (out : List Char) (s : String)
    (hs : (!(s.data.contains '\n')) = true) (h : '\n' ∉ out) :
    '\n' ∉ out ++ s.data := by
  intro hmem
  rcases List.mem_append.mp hmem with h1 | h2
  · exact h h1
  · have hns : '\n' ∉ s.data := by simpa using hs
    exact hns h2

/-- `append_token` adds no line break for a newline-free token. -/
theorem no_newline_append_token (st : FmtState) (t : Token)
    (ht : tokenHasNoNewline t = true) (h : '\n' ∉ st.output) :
    '\n' ∉ (append_token st t).output := by
  cases t with
  | Keyword s => exact no_newline_append_data st.output s ht h
  | Identifier s => exact no_newline_append_data st.output s ht h
  | Literal s => exact no_newline_append_data st.output s ht h
  | Operator s => exact no_newline_append_data st.output s ht h
  | Punctuation c =>
    intro hmem
    rcases List.mem_append.mp hmem with h1 | h2
    · exact h h1
    · have hc : '\n' = c := by simpa using h2
      have hcne : c ≠ '\n' := by simpa [tokenHasNoNewline] using ht
      exact hcne hc.symm
  | Whitespace => exact h
  | EOF => exact h

/-- `append_with_space` adds no line break for a newline-free token. -/
theorem no_newline_append_with_space (st : FmtState) (t : Token) (last : Option Token)
    (ht : tokenHasNoNewline t = true) (h : '\n' ∉ st.output) :
    '\n' ∉ (append_with_space st t last).output := by
  unfold append_with_space
  split
  · exact no_newline_append_token _ _ ht h
  · refine no_newline_append_token _ _ ht ?_
    intro hmem
    rcases List.mem_append.mp hmem with hmem1 | hmem2
    · exact h hmem1
    · simp at hmem2
  · exact no_newline_append_token _ _ ht h

/-- One formatter step over a newline-free token keeps the buffer
newline-free. -/
theorem no_newline_formatStep (st st1 : FmtState) (last : Option Token) (t : Token)
    (ht : tokenHasNoNewline t = true) (h : '\n' ∉ st.output)
    (hstep : formatStep st last t = some st1) : '\n' ∉ st1.output := by
  revert hstep
  unfold formatStep
  split
  · split
    · intro hstep
      simp only [Option.some.injEq] at hstep
      subst hstep
      exact no_newline_new_line _ (no_newline_append_token _ _ ht (no_newline_new_line _ h))
    split
    · intro hstep
      simp only [Option.some.injEq] at hstep
      subst hstep
      exact no_newline_append_token _ _ ht (no_newline_new_line _ h)
    · intro hstep
      simp only [Option.some.injEq] at hstep
      subst hstep
      exact no_newline_append_with_space _ _ _ ht h
  · intro hstep
    simp only [Option.some.injEq] at hstep
    subst hstep
    exact no_newline_new_line _ (no_newline_append_with_space _ _ _ ht h)
  · split
    · intro hstep
      exact absurd hstep (by simp)
    · intro hstep
      simp only [Option.some.injEq] at hstep
      subst hstep
      exact no_newline_append_token _ _ ht (no_newline_new_line _ h)
  · intro hstep
    simp only [Option.some.injEq] at hstep
    subst hstep
    exact no_newline_new_line _ (no_newline_append_token _ _ ht h)
  · intro hstep
    simp only [Option.some.injEq] at hstep
    subst hstep
    exact h
  · intro hstep
    simp only [Option.some.injEq] at hstep
    subst hstep
    exact no_newline_append_with_space _ _ _ ht h

/-- The formatter loop over newline-free tokens keeps the buffer
newline-free. -/
theorem no_newline_formatLoop (tokens : List Token) :
    ∀ (st : FmtState) (last : Option Token) (r : FmtState × Option Token),
      (∀ t ∈ tokens, tokenHasNoNewline t = true) → '\n' ∉ st.output →
      formatLoop st last tokens = some r → '\n' ∉ r.1.output := by
  induction tokens with
  | nil =>
    intro st last r hts h hloop
    simp only [formatLoop, Option.some.injEq] at hloop
    subst hloop
    exact h
  | cons t ts ih =>
    intro st last r hts h hloop
    simp only [formatLoop] at hloop
    cases hstep : formatStep st last t with
    | none => rw [hstep] at hloop; exact absurd hloop (by simp)
    | some st1 =>
      rw [hstep] at hloop
      have h1 : '\n' ∉ st1.output :=
        no_newline_formatStep st st1 last t (hts t (by simp)) h hstep
      exact ih _ _ _ (fun u hu => hts u (List.mem_cons_of_mem _ hu)) h1 hloop

/-- Counterexample to C9 as stated: a tokenizer-produced token sequence (from
an input whose string literal spans a line break) whose formatted output does
contain a newline character. -/
theorem claim_C9_counterexample :
    format (tokenizeStr "'a\nb' x") = some ("'a\nb' x".data) ∧
    ("'a\nb' x".data.contains '\n') = true := by
  decide

/-- Claim C9 (amended): for every token sequence in which no token's payload
contains a line-break character, the string returned by format contains no
newline — the only code path that appends a line break requires the buffer to
already end with one, which can then never first become true. -/
theorem claim_C9_amended (tokens : List Token)
    (hts : ∀ t ∈ tokens, tokenHasNoNewline t = true)
    (out : List Char) (hout : format tokens = some out) :
    '\n' ∉ out := by
  simp only [format] at hout
  cases hloop : formatLoop { indent_level := 0, output := [] } none tokens with
  | none => rw [hloop] at hout; exact absurd hout (by simp)
  | some r =>
    rw [hloop] at hout
    simp only [Option.map_some', Option.some.injEq] at hout
    subst hout
    have hr : '\n' ∉ r.1.output :=
      no_newline_formatLoop tokens _ none r hts (by simp) hloop
    intro hmem
    exact hr (mem_of_mem_trim _ _ hmem)

/-- Witness for the amended C9 at a concrete newline-free token sequence. -/
theorem claim_C9_amended_witness :
    '\n' ∉ ("a".data : List Char) :=
  claim_C9_amended [Token.Identifier "a"] (by decide) "a".data (by decide)

/-- The spec's token comparison: the token sequence with whitespace tokens
discarded. -/
def tokens_ignoring_whitespace (ts : List Token) : List Token :=
  ts.filter (fun t => !(t == Token.Whitespace))

/-- Claim C1 fails on the code: on "x SELECT" the formatter emits no
separator between the identifier and the keyword (the major-clause branch
calls new_line, which at level zero and with no trailing line break appends
nothing), so the formatted output "xSELECT" re-tokenizes to a single
identifier instead of the original two tokens, although format is defined
(returns a value) on this input. -/
theorem claim_C1_bug :
    format (tokenizeStr "x SELECT") = some ("xSELECT".data) ∧
    (format (tokenizeStr "x SELECT")).map
        (fun out => tokens_ignoring_whitespace (tokenize out)) ≠
      some (tokens_ignoring_whitespace (tokenizeStr "x SELECT")) := by
  decide

/-- Claim C3 fails on the code: formatting "SELECT a,b FROM t WHERE a=1"
yields a single line containing no newline character at all (new_line never
appends a line break to a buffer that does not already end with one), so
SELECT is not on a line of its own and no token is on an indented line. -/
theorem claim_C3_bug :
    formatSql "SELECT a,b FROM t WHERE a=1" =
      some ("SELECT a,\t b\tFROM\t t\t\tWHERE\t\t a = 1".data) ∧
    ("SELECT a,\t b\tFROM\t t\t\tWHERE\t\t a = 1".data.contains '\n') = false := by
  decide

/-- The characters `append_token` emits for a token. -/
def tokenChars (t : Token) : List Char :=
  match t with
  | Token.Keyword s => s.data
  | Token.Identifier s => s.data
  | Token.Literal s => s.data
  | Token.Operator s => s.data
  | Token.Punctuation c => [c]
  | _ => []

/-- The tokens the formatter emits inline (through `append_with_space`):
identifiers, literals, operators, keywords that are neither major-clause nor
conjunction keywords, and opening parentheses. -/
def inlineEmitted (t : Token) : Bool :=
  match t with
  | Token.Keyword kw => !(majorClauseKeywords.contains kw) && !(kw == "AND" || kw == "OR")
  | Token.Identifier _ => true
  | Token.Literal _ => true
  | Token.Operator _ => true
  | Token.Punctuation c => c == '('
  | _ => false

/-- The single space an inline token is preceded by, except after an opening
parenthesis or at the very start. -/
def spaceBefore (last : Option Token) : List Char :=
  match last with
  | some (Token.Punctuation '(') => []
  | some _ => [' ']
  | none => []

/-- `append_token` appends exactly the token's characters. -/
theorem append_token_output (st : FmtState) (t : Token) :
    (append_token st t).output = st.output ++ tokenChars t := by
  cases t <;> simp [append_token, tokenChars]

/-- `append_with_space` appends the space prefix and the token's characters. -/
theorem append_with_space_output (st : FmtState) (t : Token) (last : Option Token) :
    (append_with_space st t last).output = st.output ++ spaceBefore last ++ tokenChars t := by
  rcases last with _ | lt
  · simp [append_with_space, spaceBefore, append_token_output]
  · cases lt with
    | Punctuation c =>
      by_cases hc : c = '('
      · subst hc
        simp [append_with_space, spaceBefore, append_token_output]
      · simp [append_with_space, spaceBefore, hc, append_token_output]
    | _ => simp [append_with_space, spaceBefore, append_token_output]

/-- Inline tokens are emitted as: the buffer, one space (unless the previous
token was an opening parenthesis or absent), the token's characters, and —
for an opening parenthesis only — the indentation appended by the forced new
line at the increased level. -/
theorem formatStep_inline_output (st : FmtState) (last : Option Token) (t : Token)
    (ht : inlineEmitted t = true) :
    (formatStep st last t).map FmtState.output =
      some (st.output ++ spaceBefore last ++ tokenChars t ++
        (if t = Token.Punctuation '(' then tabs (st.indent_level + 1) else [])) := by
  cases t with
  | Keyword kw =>
    simp only [inlineEmitted, Bool.and_eq_true, Bool.not_eq_true'] at ht
    have h1 : majorClauseKeywords.contains kw = false := ht.1
    have h2 : (kw == "AND" || kw == "OR") = false := ht.2
    have h2' : ¬(kw = "AND" ∨ kw = "OR") := by
      rintro (rfl | rfl) <;> simp at h2
    simp only [formatStep, h1, Bool.false_eq_true, if_false]
    rw [if_neg h2']
    simp only [Option.map_some']
    rw [append_with_space_output]
    simp
  | Identifier s =>
    simp only [formatStep, Option.map_some']
    rw [append_with_space_output]
    simp
  | Literal s =>
    simp only [formatStep, Option.map_some']
    rw [append_with_space_output]
    simp
  | Operator s =>
    simp only [formatStep, Option.map_some']
    rw [append_with_space_output]
    simp
  | Punctuation c =>
    have hc : c = '(' := by simpa [inlineEmitted] using ht
    subst hc
    simp only [formatStep, Option.map_some']
    have hout : (append_with_space st (Token.Punctuation '(') last).output
        = st.output ++ spaceBefore last ++ [ '(' ] := append_with_space_output st _ last
    have hlast : endsWithNewline
        (append_with_space st (Token.Punctuation '(') last).output = false := by
      unfold endsWithNewline
      rw [hout, List.getLast?_concat]
      simp
    unfold new_line
    simp only [hlast, Bool.and_false, Bool.false_eq_true, if_false]
    rw [show ({ append_with_space st (Token.Punctuation '(') last with
        indent_level := (append_with_space st (Token.Punctuation '(') last).indent_level + 1
        } : FmtState).output = (append_with_space st (Token.Punctuation '(') last).output
      from rfl]
    rw [hout, append_with_space_indent]
    simp [tokenChars, List.append_assoc]
  | Whitespace => simp [inlineEmitted] at ht
  | EOF => simp [inlineEmitted] at ht

/-- After a successful run, the loop's last-token record is the last
non-whitespace token of the processed list (or the inherited record when
there is none). -/
theorem formatLoop_last (tokens : List Token) :
    ∀ (st : FmtState) (last : Option Token) (r : FmtState × Option Token),
      formatLoop st last tokens = some r →
      r.2 = ((tokens.filter (fun t => !(t == Token.Whitespace))).getLast?).elim last some := by
  induction tokens with
  | nil =>
    intro st last r hloop
    simp only [formatLoop, Option.some.injEq] at hloop
    subst hloop
    simp
  | cons t ts ih =>
    intro st last r hloop
    simp only [formatLoop] at hloop
    cases hstep : formatStep st last t with
    | none => rw [hstep] at hloop; exact absurd hloop (by simp)
    | some st1 =>
      rw [hstep] at hloop
      by_cases hws : t = Token.Whitespace
      · subst hws
        rw [if_pos rfl] at hloop
        have := ih st1 last r hloop
        simpa [List.filter] using this
      · rw [if_neg hws] at hloop
        have hr := ih st1 (some t) r hloop
        have hkeep : (t :: ts).filter (fun u => !(u == Token.Whitespace)) =
            t :: ts.filter (fun u => !(u == Token.Whitespace)) := by
          simp [List.filter_cons, hws]
        rw [hkeep, List.getLast?_cons]
        cases hl : (ts.filter (fun u => !(u == Token.Whitespace))).getLast? with
        | none => rw [hl] at hr; simpa using hr
        | some y => rw [hl] at hr; simpa using hr

/-- Claim C5: every inline-emitted token (identifier, literal, operator,
non-major non-conjunction keyword, opening parenthesis) is preceded by
exactly one space unless the previous recorded token was an opening
parenthesis or absent; and the record used for that decision is exactly the
last non-whitespace token processed so far, whitespace tokens being skipped. -/
theorem claim_C5 :
    (∀ (st : FmtState) (last : Option Token) (t : Token), inlineEmitted t = true →
      (formatStep st last t).map FmtState.output =
        some (st.output ++ spaceBefore last ++ tokenChars t ++
          (if t = Token.Punctuation '(' then tabs (st.indent_level + 1) else []))) ∧
    (∀ (tokens : List Token) (st : FmtState) (r : FmtState × Option Token),
      formatLoop st none tokens = some r →
      r.2 = (tokens.filter (fun t => !(t == Token.Whitespace))).getLast?) := by
  refine ⟨formatStep_inline_output, ?_⟩
  intro tokens st r hloop
  have h := formatLoop_last tokens st none r hloop
  cases hl : (tokens.filter (fun t => !(t == Token.Whitespace))).getLast? with
  | none => rw [hl] at h; simpa using h
  | some y => rw [hl] at h; simpa using h

/-- Witness for C5: a concrete inline emission after a keyword, and a
concrete loop run whose last-token record skips a trailing whitespace
token. -/
theorem claim_C5_witness :
    (formatStep { indent_level := 0, output := [] } (some (Token.Keyword "SELECT"))
        (Token.Identifier "a")).map FmtState.output = some [' ', 'a'] ∧
    (({ indent_level := 0, output := ['a'] }, some (Token.Identifier "a")) :
        FmtState × Option Token).2 =
      ([Token.Identifier "a", Token.Whitespace].filter
          (fun t => !(t == Token.Whitespace))).getLast? := by
  constructor
  · have h := claim_C5.1 { indent_level := 0, output := [] }
      (some (Token.Keyword "SELECT")) (Token.Identifier "a") (by decide)
    simpa using h
  · exact claim_C5.2 [Token.Identifier "a", Token.Whitespace]
      { indent_level := 0, output := [] } _ (by decide)
